import Mathlib

/-!
Verification of the FASTA / GenBank file parser.

The source component exposes three pure functions over an input string:
`detectFormat`, `parseFasta` and `parseGenBank`, plus a dispatching facade.
Strings are modelled as lists of characters; the JavaScript regular
expressions used by the source are embedded as explicit character scanners
with the exact first-match, greedy and backtracking semantics of the
original patterns.
-/

set_option maxRecDepth 4000

abbrev Str := List Char

/-- Character class of the JS `\s` regex class and of `String.prototype.trim`
(the subset relevant to textual input): space, tab, line feed, carriage
return, vertical tab, form feed, no-break space, line separator, paragraph
separator and BOM. -/
def jsWs (c : Char) : Bool :=
  c = ' ' || c = '\t' || c = '\n' || c = '\r' || c = '\x0b' || c = '\x0c' ||
  c = '\u00A0' || c = '\u2028' || c = '\u2029' || c = '\uFEFF'

/-- JS LineTerminator set: the characters that end a line for the `.`
class, the `m`-flag anchors and the `^` anchor. -/
def isLineTerm (c : Char) : Bool :=
  c = '\n' || c = '\r' || c = '\u2028' || c = '\u2029'

/-- Embeds `String.prototype.trim`. -/
def jsTrim (s : Str) : Str :=
  ((s.dropWhile jsWs).reverse.dropWhile jsWs).reverse

/-- Embeds `split(/\r?\n/)`: worker carrying the reversed current piece. -/
def splitLinesAux : Str → Str → List Str
  | [], acc => [acc.reverse]
  | '\r' :: '\n' :: rest, acc => acc.reverse :: splitLinesAux rest []
  | '\n' :: rest, acc => acc.reverse :: splitLinesAux rest []
  | c :: rest, acc => splitLinesAux rest (c :: acc)

def splitLines (s : Str) : List Str := splitLinesAux s []

/-- Embeds `text.split(/^>/m)`: a `>` at the start of the text or right
after a line terminator starts a new chunk and is dropped. The flag records
whether the current position is a line start. -/
def fastaSplitAux : Str → Bool → Str → List Str
  | [], _, acc => [acc.reverse]
  | c :: rest, atStart, acc =>
    if atStart && c = '>' then acc.reverse :: fastaSplitAux rest false []
    else fastaSplitAux rest (isLineTerm c) (c :: acc)

def fastaSplit (cs : Str) : List Str := fastaSplitAux cs true []

structure FastaRecord where
  header : Str
  sequence : Str
  length : Nat
deriving DecidableEq, Repr

/-- Per-chunk body of `parseFasta`: first line (of the already trimmed
chunk) trimmed is the header, the remaining lines joined with all
whitespace removed are the sequence. -/
def fastaRecordOfChunk (rec : Str) : FastaRecord :=
  let lines := splitLines rec
  let header := jsTrim (lines.headD [])
  let sequence := lines.tail.flatten.filter (fun c => !jsWs c)
  ⟨header, sequence, sequence.length⟩

/-- Embeds `parseFasta`. -/
def parseFasta (cs : Str) : List FastaRecord :=
  (((fastaSplit cs).map jsTrim).filter (fun s => !s.isEmpty)).map fastaRecordOfChunk

/-- Description of the FASTA splitter following the wording of the spec:
each chunk that is non-empty after trimming yields one record, in order;
the header is the (trimmed) first line of the kept chunk, the sequence the
remaining lines concatenated with all whitespace characters removed, and
the length the character count of the sequence. -/
def specFastaRecord (chunk : Str) : Option FastaRecord :=
  let t := jsTrim chunk
  if t.isEmpty then none
  else
    let lines := splitLines t
    let seq := lines.tail.flatten.filter (fun c => !jsWs c)
    some ⟨jsTrim (lines.headD []), seq, seq.length⟩

def specFastaRecords (cs : Str) : List FastaRecord :=
  (fastaSplit cs).filterMap specFastaRecord

/-- First index at a line start (position 0 or right after a line
terminator) where `pat` begins, as in `text.search(/^PAT/m)`. -/
def lineStartSearchAux (pat : Str) : Str → Bool → Nat → Option Nat
  | [], _, _ => none
  | c :: rest, atStart, i =>
    if atStart && pat.isPrefixOf (c :: rest) then some i
    else lineStartSearchAux pat rest (isLineTerm c) (i + 1)

def lineStartSearch (pat cs : Str) : Option Nat := lineStartSearchAux pat cs true 0

inductive Format
  | fasta
  | genbank
  | unknown
deriving DecidableEq, Repr

/-- Embeds `detectFormat`. -/
def detectFormat (cs : Str) : Format :=
  if (lineStartSearch ("LOCUS".toList) cs).isSome then .genbank
  else if (lineStartSearch ['>'] (jsTrim cs)).isSome then .fasta
  else .unknown

/-- Plain substring search, as in `String.prototype.indexOf`. -/
def idxOfAux (pat : Str) : Str → Nat → Option Nat
  | [], _ => none
  | c :: rest, i => if pat.isPrefixOf (c :: rest) then some i else idxOfAux pat rest (i + 1)

/-- Embeds `text.indexOf(pat, start)`. -/
def jsIndexOfFrom (pat cs : Str) (start : Nat) : Option Nat :=
  (idxOfAux pat (cs.drop start) 0).map (· + start)

def locusTok : Str := "LOCUS".toList

/-- Removes trailing line terminators. -/
def dropTrailTerm (w : Str) : Str := (w.reverse.dropWhile isLineTerm).reverse

/-- Attempt of `/^LOCUS\s+(.+)$/` at one position of the text, with the
greedy-plus-backtracking semantics of the JS engine: after the literal
token, `\s+` takes the longest whitespace run; if no non-terminator
character follows (the run reaches end of input) the quantifier hands
characters back until `.+` can match a single non-terminator whitespace
character, requiring at least one whitespace character to remain for
`\s+`. Returns the full matched text. -/
def locusMatchAt (suf : Str) : Option Str :=
  if locusTok.isPrefixOf suf then
    let rest := suf.drop 5
    let w := rest.takeWhile jsWs
    if w.isEmpty then none
    else
      let b := (rest.drop w.length).takeWhile (fun c => !isLineTerm c)
      if !b.isEmpty then some (locusTok ++ w ++ b)
      else
        let w2 := dropTrailTerm w
        if 2 ≤ w2.length then some (locusTok ++ w2) else none
  else none

/-- First match of `/^LOCUS\s+(.+)$/m` over the text. -/
def locusSearchAux : Str → Bool → Option Str
  | [], _ => none
  | c :: rest, atStart =>
    match (if atStart then locusMatchAt (c :: rest) else none) with
    | some m => some m
    | none => locusSearchAux rest (isLineTerm c)

def locusMatchJs (cs : Str) : Option Str := locusSearchAux cs true

/-- A qualifier value cell as stored by the source: the boolean presence
marker (`true`) or a string. -/
inductive Atom
  | flagA
  | strA (v : Str)
deriving DecidableEq, Repr

/-- A stored qualifier value: a single cell or an array of cells. -/
inductive QualVal
  | one (a : Atom)
  | multi (l : List Atom)
deriving DecidableEq, Repr

structure Feature where
  key : Str
  location : Str
  qualifiers : List (Str × QualVal)
deriving DecidableEq, Repr

structure GenBankDoc where
  locus : Option Str
  features : List Feature
deriving DecidableEq, Repr

def lookupAssoc : List (Str × QualVal) → Str → Option QualVal
  | [], _ => none
  | (k0, v0) :: t, k => if k0 = k then some v0 else lookupAssoc t k

/-- Updates the value stored under a key, keeping its position; appends
when the key is absent (JS property assignment on a plain object). -/
def setAssoc : List (Str × QualVal) → Str → QualVal → List (Str × QualVal)
  | [], k, v => [(k, v)]
  | (k0, v0) :: t, k, v => if k0 = k then (k0, v) :: t else (k0, v0) :: setAssoc t k v

/-- Embeds the qualifier insertion policy of the source: a fresh key stores
the cell; a repeated key turns the stored value into an array, preserving
prior cells in order and appending the new one. -/
def insertQual (qs : List (Str × QualVal)) (k : Str) (v : Atom) : List (Str × QualVal) :=
  match lookupAssoc qs k with
  | none => qs ++ [(k, .one v)]
  | some (.one a) => setAssoc qs k (.multi [a, v])
  | some (.multi l) => setAssoc qs k (.multi (l ++ [v]))

def digitsToNat (s : Str) : Nat := s.foldl (fun a c => a * 10 + (c.toNat - 48)) 0

/-- Whether a string is a canonical array-index property key in JS (a
digit string with no leading zero whose value is below 2^32 - 1); such
keys come first, numerically ascending, in `Object.keys` order. -/
def isArrayIndexKey (s : Str) : Bool :=
  !s.isEmpty && s.all Char.isDigit && (s = ['0'] || s.headD '0' ≠ '0') &&
    digitsToNat s < 4294967295

def insSortedKey (x : Str) : List Str → List Str
  | [] => [x]
  | y :: t => if digitsToNat x ≤ digitsToNat y then x :: y :: t else y :: insSortedKey x t

def sortKeysNum : List Str → List Str
  | [] => []
  | x :: t => insSortedKey x (sortKeysNum t)

/-- Embeds `Object.keys` ordering over the stored key sequence: canonical
array-index keys first in ascending numeric order, then the remaining keys
in insertion order. -/
def jsObjKeys (ks : List Str) : List Str :=
  sortKeysNum (ks.filter isArrayIndexKey) ++ ks.filter (fun k => !isArrayIndexKey k)

/-- Embeds `Object.keys(current.qualifiers).slice(-1)[0]`. -/
def lastObjKey (qs : List (Str × QualVal)) : Option Str :=
  (jsObjKeys (qs.map Prod.fst)).getLast?

/-- Embeds `arr[arr.length - 1] += ' ' + addition`: JS `+=` coerces a
boolean cell to the string true before concatenating. -/
def appendLastAtom (l : List Atom) (add : Str) : List Atom :=
  match l.getLast? with
  | none => l
  | some (.strA v) => l.dropLast ++ [.strA (v ++ ' ' :: add)]
  | some .flagA => l.dropLast ++ [.strA ("true ".toList ++ add)]

/-- Embeds the continuation-line handler body: the addition goes to the
last key in `Object.keys` order; a string value is extended (and the
result trimmed), the last element of an array value is extended, and a
bare boolean value matches neither branch so nothing changes. -/
def contAppend (qs : List (Str × QualVal)) (add : Str) : List (Str × QualVal) :=
  match lastObjKey qs with
  | none => qs
  | some k =>
    match lookupAssoc qs k with
    | some (.one (.strA v)) => setAssoc qs k (.one (.strA (jsTrim (v ++ ' ' :: add))))
    | some (.one .flagA) => qs
    | some (.multi l) => setAssoc qs k (.multi (appendLastAtom l add))
    | none => qs

def isQualKeyChar (c : Char) : Bool := c.isAlpha || c.isDigit || c = '_' || c = '-'

/-- Embeds `line.match(/^\s{5}(\S+)\s+(.+)/)`, returning key and trimmed
location: five whitespace characters, a non-whitespace token, a whitespace
run, then at least one non-terminator character. When the whitespace run
after the token reaches the end of the line, the engine backtracks and
`.+` matches a single whitespace character, so the trimmed location is
empty; this needs at least two characters in the run. -/
def featMatchFn (line : Str) : Option (Str × Str) :=
  if (line.take 5).length = 5 && (line.take 5).all jsWs then
    let rest := line.drop 5
    let key := rest.takeWhile (fun c => !jsWs c)
    if key.isEmpty then none
    else
      let r2 := rest.drop key.length
      let w := r2.takeWhile jsWs
      if w.isEmpty then none
      else
        let b := (r2.drop w.length).takeWhile (fun c => !isLineTerm c)
        if !b.isEmpty then some (key, jsTrim b)
        else
          let w2 := dropTrailTerm w
          if 2 ≤ w2.length then some (key, []) else none
  else none

/-- Bare-token alternative of the qualifier value pattern: a maximal
non-whitespace run; when empty the optional value group matches nothing
and the qualifier is a flag. -/
def bareValOrFlag (r3 : Str) : Atom :=
  let bare := r3.takeWhile (fun c => !jsWs c)
  if bare.isEmpty then .flagA else .strA bare

/-- Embeds the qualifier-line pattern
`^\s-21(\/[A-Za-z0-9_\-]+)(=("([^"]*)"|\S+))?` of the source: twenty-one
whitespace characters, a slash, a key, then optionally an equals sign with
either a double-quoted value (up to the next quote) or a bare token. With
an opening quote but no closing quote the quoted alternative fails and the
bare-token alternative matches starting at the quote character. -/
def qualMatchFn (line : Str) : Option (Str × Atom) :=
  if (line.take 21).length = 21 && (line.take 21).all jsWs then
    match line.drop 21 with
    | '/' :: r =>
      let key := r.takeWhile isQualKeyChar
      if key.isEmpty then none
      else
        match r.drop key.length with
        | '=' :: r3 =>
          match r3 with
          | '"' :: r4 =>
            let inner := r4.takeWhile (fun c => c ≠ '"')
            if inner.length < r4.length then some (key, .strA inner)
            else some (key, bareValOrFlag r3)
          | _ => some (key, bareValOrFlag r3)
        | _ => some (key, .flagA)
    | _ => none
  else none

/-- Embeds `line.match(/^\s{21}(.+)/)`: twenty-one whitespace characters
then at least one non-terminator character (which may itself be
whitespace). -/
def contMatchFn (line : Str) : Option Str :=
  if (line.take 21).length = 21 && (line.take 21).all jsWs then
    let b := (line.drop 21).takeWhile (fun c => !isLineTerm c)
    if b.isEmpty then none else some b
  else none

structure GBState where
  current : Option Feature
  features : List Feature
deriving DecidableEq, Repr

/-- One iteration of the `forEach` over feature-table lines. -/
def stepLine (st : GBState) (line : Str) : GBState :=
  match featMatchFn line with
  | some (k, loc) =>
    { current := some ⟨k, loc, []⟩, features := st.features ++ st.current.toList }
  | none =>
    match st.current with
    | none => st
    | some cur =>
      match qualMatchFn line with
      | some (k, v) =>
        { st with current := some { cur with qualifiers := insertQual cur.qualifiers k v } }
      | none =>
        match contMatchFn line with
        | some t =>
          { st with current := some { cur with qualifiers := contAppend cur.qualifiers (jsTrim t) } }
        | none => st

def featuresTokS : Str := "FEATURES".toList

def originTokS : Str := "ORIGIN".toList

def slashTok : Str := "\n//".toList

/-- Embeds `text.substring(a, b)` (with `b` possibly undefined): JS
substring swaps its bounds when the start exceeds the end. -/
def jsSubstringTo (cs : Str) (a : Nat) (b : Option Nat) : Str :=
  match b with
  | none => cs.drop a
  | some b => (cs.take (max a b)).drop (min a b)

/-- The feature-table slice of the text: from the FEATURES line start to
the first `^ORIGIN` match anywhere in the text, else to the first
occurrence of a newline followed by two slashes at or after the FEATURES
start, else to end of text. -/
def featuresSlice (cs : Str) (fs : Nat) : Str :=
  let endIdx : Option Nat :=
    match lineStartSearch originTokS cs with
    | some o => some o
    | none => jsIndexOfFrom slashTok cs fs
  jsSubstringTo cs fs endIdx

/-- Folds the line handler over the feature-table lines and commits the
still-open feature at the end. -/
def runFeatureLines (lines : List Str) : List Feature :=
  let st := lines.foldl stepLine ⟨none, []⟩
  st.features ++ st.current.toList

/-- Embeds `parseGenBank`. -/
def parseGenBank (cs : Str) : GenBankDoc :=
  let locus := (locusMatchJs cs).map jsTrim
  match lineStartSearch featuresTokS cs with
  | none => ⟨locus, []⟩
  | some fs => ⟨locus, runFeatureLines (splitLines (featuresSlice cs fs))⟩

inductive ParseOutcome
  | fastaOut (rs : List FastaRecord)
  | genbankOut (d : GenBankDoc)
  | detectionFailed
deriving DecidableEq, Repr

/-- The dispatching facade: detect, then parse with the matching parser. -/
def parseText (cs : Str) : ParseOutcome :=
  match detectFormat cs with
  | .fasta => .fastaOut (parseFasta cs)
  | .genbank => .genbankOut (parseGenBank cs)
  | .unknown => .detectionFailed

/-- Splits a sequence into chunks of width `w + 1`. -/
def chunksOf (w : Nat) : Str → List Str
  | [] => []
  | c :: rest => (c :: rest.take w) :: chunksOf w (rest.drop w)
termination_by s => s.length
decreasing_by simp [List.length_drop]; omega

/-- Joins lines with a line feed between consecutive elements. -/
def joinNL : List Str → Str
  | [] => []
  | [l] => l
  | l :: l2 :: ls => l ++ '\n' :: joinNL (l2 :: ls)

/-- Reassembles a FASTA record: the header behind a `>` delimiter, then
the sequence wrapped into lines of width `w + 1`. -/
def rewrapFasta (w : Nat) (h s : Str) : Str :=
  '>' :: h ++ '\n' :: joinNL (chunksOf w s)

/-! ### General list lemmas -/

theorem mapFilterMap_eq_filterMap {α β γ : Type} (f : α → β) (p : β → Bool) (g : β → γ)
    (l : List α) :
    ((l.map f).filter p).map g = l.filterMap (fun x => if p (f x) then some (g (f x)) else none) := by
  induction l with
  | nil => rfl
  | cons a t ih =>
    simp only [List.map_cons, List.filter_cons, List.filterMap_cons]
    cases h : p (f a) <;> simp [h, ih]

theorem takeWhile_of_all {p : Char → Bool} :
    ∀ l : Str, (∀ c ∈ l, p c = true) → l.takeWhile p = l := by
  intro l h
  induction l with
  | nil => rfl
  | cons a t ih =>
    rw [List.takeWhile_cons_of_pos (h a (by simp))]
    rw [ih (fun c hc => h c (by simp [hc]))]

theorem takeWhile_append_cons {p : Char → Bool} (a : Str) (b : Char) (t : Str)
    (ha : ∀ c ∈ a, p c = true) (hb : p b = false) :
    (a ++ b :: t).takeWhile p = a := by
  induction a with
  | nil => simp [List.takeWhile_cons_of_neg, hb]
  | cons x xs ih =>
    rw [List.cons_append, List.takeWhile_cons_of_pos (ha x (by simp))]
    rw [ih (fun c hc => ha c (by simp [hc]))]

/-! ### Claim C5 -/

/-- Claim C5: for every FASTA input, parseFasta emits one record per chunk
that is non-empty after trimming, in order of appearance; for each kept
chunk the header is its first line trimmed (without the delimiter), the
sequence is the remaining lines concatenated with all whitespace removed,
and length is the character count of the sequence; a chunk with no
sequence lines still yields a record with an empty sequence. Stated as the
equality of the source embedding with the spec-worded description, plus
the concrete example given in the spec. -/
theorem C5_parseFasta_refines_spec :
    (∀ cs : Str, parseFasta cs = specFastaRecords cs) ∧
    parseFasta (">seq1\nACGT\nACGT\n>seq2\nTTTT\n".toList) =
      [⟨"seq1".toList, "ACGTACGT".toList, 8⟩, ⟨"seq2".toList, "TTTT".toList, 4⟩] := by
  constructor
  · intro cs
    unfold parseFasta specFastaRecords
    rw [mapFilterMap_eq_filterMap]
    congr 1
    funext x
    unfold specFastaRecord fastaRecordOfChunk
    cases h : (jsTrim x).isEmpty <;> simp [h]
  · decide

/-! ### Claim C9 -/

/-- Claim C9: for every input string the detector and both parsers return
a value (all three are total functions of the embedding); unrecognized
input yields the unknown format, which the facade maps to a detection
failure; every emitted FASTA record keeps the length invariant; and a
GenBank input without a FEATURES line yields an empty feature list rather
than a failure. -/
theorem C9_totality_leniency :
    ∀ cs : Str,
      (detectFormat cs = .genbank ∨ detectFormat cs = .fasta ∨ detectFormat cs = .unknown) ∧
      (detectFormat cs = .unknown → parseText cs = .detectionFailed) ∧
      (∀ r ∈ parseFasta cs, r.length = r.sequence.length) ∧
      (lineStartSearch featuresTokS cs = none → (parseGenBank cs).features = []) := by
  intro cs
  refine ⟨?_, ?_, ?_, ?_⟩
  · unfold detectFormat
    split_ifs <;> simp
  · intro h
    unfold parseText
    rw [h]
  · intro r hr
    unfold parseFasta at hr
    rcases List.mem_map.mp hr with ⟨c, _, rfl⟩
    rfl
  · intro h
    simp only [parseGenBank, h]

/-- Witness for C9 at a concrete unrecognized input. -/
theorem C9_witness :
    parseText ("hello".toList) = .detectionFailed ∧
    (parseGenBank ("hello".toList)).features = [] :=
  ⟨(C9_totality_leniency ("hello".toList)).2.1 (by decide),
   (C9_totality_leniency ("hello".toList)).2.2.2 (by decide)⟩

/-! ### Association-list lemmas for the qualifier mapping -/

theorem lookup_setAssoc_self (qs : List (Str × QualVal)) (k : Str) (v : QualVal) :
    lookupAssoc (setAssoc qs k v) k = some v := by
  induction qs with
  | nil => simp [setAssoc, lookupAssoc]
  | cons p t ih =>
    obtain ⟨k0, v0⟩ := p
    by_cases h : k0 = k <;> simp [setAssoc, lookupAssoc, h, ih]

theorem lookup_setAssoc_other (qs : List (Str × QualVal)) (k k2 : Str) (v : QualVal)
    (hne : k2 ≠ k) :
    lookupAssoc (setAssoc qs k v) k2 = lookupAssoc qs k2 := by
  have hkk : ¬ k = k2 := fun h => hne h.symm
  induction qs with
  | nil => simp [setAssoc, lookupAssoc, hkk]
  | cons p t ih =>
    obtain ⟨k0, v0⟩ := p
    by_cases h : k0 = k
    · subst h
      simp [setAssoc, lookupAssoc, hkk]
    · simp [setAssoc, lookupAssoc, h, ih]

theorem map_fst_setAssoc_of_mem (qs : List (Str × QualVal)) (k : Str) (v w : QualVal)
    (hk : lookupAssoc qs k = some w) :
    (setAssoc qs k v).map Prod.fst = qs.map Prod.fst := by
  induction qs with
  | nil => simp [lookupAssoc] at hk
  | cons p t ih =>
    obtain ⟨k0, v0⟩ := p
    by_cases h : k0 = k
    · simp [setAssoc, h]
    · simp only [lookupAssoc, if_neg h] at hk
      simp [setAssoc, h, ih hk]

/-! ### Claim C6 -/

/-- Claim C6: the first occurrence of a qualifier key stores the single
cell; a second occurrence of the same key replaces the stored value with a
two-element sequence holding both cells in original order (and a later
occurrence appends to the sequence), never disturbing other keys or the
key order. The embedding is exercised end to end on a feature carrying the
same key twice. -/
theorem C6_repeated_key_promotion :
    (∀ (qs : List (Str × QualVal)) (k : Str) (v : Atom),
      (lookupAssoc qs k = none → insertQual qs k v = qs ++ [(k, .one v)]) ∧
      (∀ a, lookupAssoc qs k = some (.one a) →
        lookupAssoc (insertQual qs k v) k = some (.multi [a, v]) ∧
        (insertQual qs k v).map Prod.fst = qs.map Prod.fst ∧
        ∀ k2, k2 ≠ k → lookupAssoc (insertQual qs k v) k2 = lookupAssoc qs k2) ∧
      (∀ l, lookupAssoc qs k = some (.multi l) →
        lookupAssoc (insertQual qs k v) k = some (.multi (l ++ [v])) ∧
        (insertQual qs k v).map Prod.fst = qs.map Prod.fst ∧
        ∀ k2, k2 ≠ k → lookupAssoc (insertQual qs k v) k2 = lookupAssoc qs k2)) ∧
    (parseGenBank ("FEATURES\n     CDS             1..10\n                     /gene=\"a\"\n                     /gene=\"b\"\n".toList)).features =
      [⟨"CDS".toList, "1..10".toList,
        [("gene".toList, .multi [.strA "a".toList, .strA "b".toList])]⟩] := by
  constructor
  · intro qs k v
    refine ⟨?_, ?_, ?_⟩
    · intro h
      simp [insertQual, h]
    · intro a h
      simp only [insertQual, h]
      exact ⟨lookup_setAssoc_self qs k _,
        map_fst_setAssoc_of_mem qs k _ _ h,
        fun k2 hk2 => lookup_setAssoc_other qs k k2 _ hk2⟩
    · intro l h
      simp only [insertQual, h]
      exact ⟨lookup_setAssoc_self qs k _,
        map_fst_setAssoc_of_mem qs k _ _ h,
        fun k2 hk2 => lookup_setAssoc_other qs k k2 _ hk2⟩
  · decide

/-- Witness for C6: a second occurrence of key a next to an unrelated key
b is promoted to a two-element sequence with the earlier value first. -/
theorem C6_witness :
    lookupAssoc
      (insertQual [(['a'], .one (.strA ['1'])), (['b'], .one (.strA ['2']))] ['a'] (.strA ['3']))
      ['a'] = some (.multi [.strA ['1'], .strA ['3']]) ∧
    lookupAssoc
      (insertQual [(['a'], .one (.strA ['1'])), (['b'], .one (.strA ['2']))] ['a'] (.strA ['3']))
      ['b'] = some (.one (.strA ['2'])) := by
  have h := (C6_repeated_key_promotion.1
    [(['a'], .one (.strA ['1'])), (['b'], .one (.strA ['2']))] ['a'] (.strA ['3'])).2.1
    (.strA ['1']) (by decide)
  exact ⟨h.1, by rw [h.2.2 ['b'] (by decide)]; decide⟩

/-! ### Claim C4 -/

/-- Claim C4 counterexample: a continuation line directly after a bare
flag qualifier leaves the flag unchanged; the continuation text is not
stored anywhere, contradicting the claimed promotion of the flag to a
string value holding the continuation text. -/
theorem C4_cex :
    (parseGenBank ("FEATURES\n     CDS             1..10\n                     /pseudo\n                     xyz\n".toList)).features =
      [⟨"CDS".toList, "1..10".toList, [("pseudo".toList, .one .flagA)]⟩] ∧
    QualVal.one .flagA ≠ QualVal.one (.strA "xyz".toList) := by
  constructor <;> decide

/-- Claim C4 (amended): when the value owned by the last key in object-key
order is the boolean flag marker, a continuation line is dropped and the
qualifier mapping is unchanged (the source only extends string or array
values). -/
theorem C4_flag_continuation_dropped (qs : List (Str × QualVal)) (k : Str) (add : Str)
    (hl : lastObjKey qs = some k) (hv : lookupAssoc qs k = some (.one .flagA)) :
    contAppend qs add = qs := by
  simp only [contAppend, hl, hv]

/-- Witness for C4 at a concrete flag-valued mapping. -/
theorem C4_witness :
    contAppend [("pseudo".toList, .one .flagA)] ("xyz".toList) =
      [("pseudo".toList, .one .flagA)] :=
  C4_flag_continuation_dropped [("pseudo".toList, .one .flagA)] ("pseudo".toList)
    ("xyz".toList) (by decide) (by decide)

/-! ### Claim C2 -/

/-- Claim C2 counterexample: an ORIGIN line occurring before the FEATURES
line does bound the feature-table slice (the global ORIGIN search wins and
the substring bounds swap), so the CDS feature that the claim requires is
not produced; the same document without the leading ORIGIN line does
produce it. -/
theorem C2_cex :
    (parseGenBank ("ORIGIN\nFEATURES\n     CDS             1..10\n".toList)).features = [] ∧
    (parseGenBank ("FEATURES\n     CDS             1..10\n".toList)).features =
      [⟨"CDS".toList, "1..10".toList, []⟩] := by
  constructor <;> decide

/-- Claim C2 (amended): the end boundary of the feature-table slice is the
first line beginning with ORIGIN anywhere in the text (not only after the
FEATURES line); if there is none, it is the first occurrence of a newline
followed by two slashes at or after the FEATURES start; if neither exists
the slice runs to end of text. When the ORIGIN position precedes the
FEATURES position the substring bounds swap, so the slice is the text from
the ORIGIN line start to the FEATURES line start. -/
theorem C2_boundary (cs : Str) (fs : Nat)
    (hfs : lineStartSearch featuresTokS cs = some fs) :
    (parseGenBank cs).features = runFeatureLines (splitLines (featuresSlice cs fs)) ∧
    (∀ o, lineStartSearch originTokS cs = some o →
      featuresSlice cs fs = (cs.drop (min fs o)).take (max fs o - min fs o)) ∧
    (lineStartSearch originTokS cs = none →
      (∀ e, jsIndexOfFrom slashTok cs fs = some e →
        fs ≤ e ∧ featuresSlice cs fs = (cs.drop fs).take (e - fs)) ∧
      (jsIndexOfFrom slashTok cs fs = none → featuresSlice cs fs = cs.drop fs)) := by
  refine ⟨?_, ?_, ?_⟩
  · simp only [parseGenBank, hfs]
  · intro o ho
    simp only [featuresSlice, ho, jsSubstringTo]
    exact List.drop_take _ _ _
  · intro h
    constructor
    · intro e he
      have hfse : fs ≤ e := by
        unfold jsIndexOfFrom at he
        rcases Option.map_eq_some'.mp he with ⟨i, _, rfl⟩
        omega
      refine ⟨hfse, ?_⟩
      simp only [featuresSlice, h, he, jsSubstringTo]
      have h1 : min fs e = fs := by omega
      have h2 : max fs e = e := by omega
      rw [h1, h2]
      exact List.drop_take _ _ _
    · intro hnone
      simp only [featuresSlice, h, hnone, jsSubstringTo]

/-- Witness for C2 at the ORIGIN-before-FEATURES document: the slice is
the swapped substring, the text from index 0 (the ORIGIN line) to index 7
(the FEATURES line). -/
theorem C2_witness :
    (parseGenBank ("ORIGIN\nFEATURES\n     CDS             1..10\n".toList)).features =
      runFeatureLines (splitLines
        (featuresSlice ("ORIGIN\nFEATURES\n     CDS             1..10\n".toList) 7)) ∧
    featuresSlice ("ORIGIN\nFEATURES\n     CDS             1..10\n".toList) 7 =
      ((("ORIGIN\nFEATURES\n     CDS             1..10\n".toList).drop (min 7 0)).take
        (max 7 0 - min 7 0)) :=
  ⟨(C2_boundary _ 7 (by decide)).1, (C2_boundary _ 7 (by decide)).2.1 0 (by decide)⟩

/-! ### Claim C10 -/

/-- Claim C10: a qualifier-start line whose equals sign is followed by an
opening double quote with no closing quote on the line stores the bare
whitespace-delimited token including the opening quote character (the
quoted alternative fails, the bare-token alternative matches from the
quote); a later continuation line then extends that string value as
usual. -/
theorem C10_unclosed_quote (pad key rest : Str)
    (hpad : pad.length = 21) (hws : ∀ c ∈ pad, jsWs c = true)
    (hk : key ≠ []) (hkc : ∀ c ∈ key, isQualKeyChar c = true)
    (hq : ∀ c ∈ rest, c ≠ '"') :
    qualMatchFn (pad ++ ('/' :: (key ++ '=' :: '"' :: rest))) =
      some (key, .strA ('"' :: rest.takeWhile (fun c => !jsWs c))) ∧
    (∀ add, contAppend [(key, .one (.strA ('"' :: rest.takeWhile (fun c => !jsWs c))))] add =
      [(key, .one (.strA (jsTrim (('"' :: rest.takeWhile (fun c => !jsWs c)) ++ ' ' :: add))))]) := by
  have hkE : key.isEmpty = false := by
    cases key with
    | nil => exact absurd rfl hk
    | cons a t => rfl
  have htk : (key ++ '=' :: '"' :: rest).takeWhile isQualKeyChar = key :=
    takeWhile_append_cons key '=' _ hkc (by decide)
  have hinner : rest.takeWhile (fun c => c ≠ '"') = rest :=
    takeWhile_of_all rest (fun c hc => by simpa using hq c hc)
  constructor
  · have htake : (pad ++ ('/' :: (key ++ '=' :: '"' :: rest))).take 21 = pad :=
      @List.take_left' _ pad ('/' :: (key ++ '=' :: '"' :: rest)) 21 hpad
    have hdrop : (pad ++ ('/' :: (key ++ '=' :: '"' :: rest))).drop 21 =
        '/' :: (key ++ '=' :: '"' :: rest) :=
      @List.drop_left' _ pad ('/' :: (key ++ '=' :: '"' :: rest)) 21 hpad
    have hall : pad.all jsWs = true := List.all_eq_true.mpr hws
    have hdropk : (key ++ '=' :: '"' :: rest).drop key.length = '=' :: '"' :: rest :=
      List.drop_left _ _
    simp only [qualMatchFn, htake, hdrop, hpad, hall, Bool.and_self, if_true, htk, hkE,
      hdropk, hinner, lt_irrefl, bareValOrFlag]
    simp [show jsWs '"' = false from rfl,
      List.takeWhile_cons_of_pos (show (!jsWs '"') = true from rfl)]
  · intro add
    have hlast : lastObjKey [(key, QualVal.one (.strA ('"' :: rest.takeWhile (fun c => !jsWs c))))] =
        some key := by
      unfold lastObjKey jsObjKeys
      cases hA : isArrayIndexKey key <;> simp [hA, sortKeysNum, insSortedKey]
    simp [contAppend, hlast, lookupAssoc, setAssoc]

/-- Witness for C10: an unclosed quoted gene value stores the token with
its opening quote. -/
theorem C10_witness :
    qualMatchFn (List.replicate 21 ' ' ++ ('/' :: ("gene".toList ++ '=' :: '"' :: "abc".toList))) =
      some ("gene".toList, .strA "\"abc".toList) := by
  have h := (C10_unclosed_quote (List.replicate 21 ' ') ("gene".toList) ("abc".toList)
    (by decide) (by decide) (by decide) (by decide) (by decide)).1
  rw [h]
  decide

/-! ### Claim C3 -/

theorem take5_rep_append (k : Nat) (x : Str) (h : 5 ≤ k) :
    (List.replicate k ' ' ++ x).take 5 = List.replicate 5 ' ' := by
  obtain ⟨m, rfl⟩ : ∃ m, k = 5 + m := ⟨k - 5, by omega⟩
  rw [List.replicate_add, List.append_assoc]
  exact List.take_left' (by simp)

theorem drop5_rep_append (k : Nat) (x : Str) (h : 5 ≤ k) :
    (List.replicate k ' ' ++ x).drop 5 = List.replicate (k - 5) ' ' ++ x := by
  obtain ⟨m, rfl⟩ : ∃ m, k = 5 + m := ⟨k - 5, by omega⟩
  rw [show 5 + m - 5 = m by omega, List.replicate_add, List.append_assoc]
  exact List.drop_left' (by simp)

/-- Claim C3 counterexample: a line indented by 22 spaces is not inert; it
is treated as a continuation and its trimmed text is appended to the last
qualifier value, so the gene qualifier ends as two words rather than the
one word the claim requires. -/
theorem C3_cex :
    (parseGenBank ("FEATURES\n     CDS             1..10\n                     /gene=\"abc\"\n                      def\n".toList)).features =
      [⟨"CDS".toList, "1..10".toList, [("gene".toList, .one (.strA "abc def".toList))]⟩] ∧
    QualVal.one (.strA "abc def".toList) ≠ QualVal.one (.strA "abc".toList) := by
  constructor <;> decide

/-- Claim C3 (amended): the 5 and 21 indentation widths are exact counts
of whitespace characters, not specifically of spaces: five tabs followed
by a key and location are accepted as a feature-start line; a line with 6
to 20 units of leading whitespace matches none of the three rules and is
inert; but a line with 22 or more units of leading whitespace and further
non-terminator content is not inert: it fails the feature and qualifier
rules yet matches the continuation rule (the characters beyond the 21st
count as content), so it contributes to the last qualifier value. -/
theorem C3_indentation_exact (k n : Nat) (c : Char) (t t2 : Str) :
    (6 ≤ k → k ≤ 20 → jsWs c = false →
      featMatchFn (List.replicate k ' ' ++ c :: t2) = none ∧
      qualMatchFn (List.replicate k ' ' ++ c :: t2) = none ∧
      contMatchFn (List.replicate k ' ' ++ c :: t2) = none) ∧
    ((∀ d ∈ t, isLineTerm d = false) →
      contMatchFn (List.replicate 21 ' ' ++ (List.replicate (n + 1) ' ' ++ t)) =
        some (List.replicate (n + 1) ' ' ++ t) ∧
      featMatchFn (List.replicate 21 ' ' ++ (List.replicate (n + 1) ' ' ++ t)) = none ∧
      qualMatchFn (List.replicate 21 ' ' ++ (List.replicate (n + 1) ' ' ++ t)) = none) ∧
    featMatchFn ("\t\t\t\t\tCDS\t1..10".toList) = some ("CDS".toList, "1..10".toList) := by
  have hsp : jsWs ' ' = true := by decide
  refine ⟨?_, ?_, by decide⟩
  · intro h6 h20 hc
    have h5 : 5 ≤ k := by omega
    have htk5 := take5_rep_append k (c :: t2) h5
    have hdr5 := drop5_rep_append k (c :: t2) h5
    have hkey : (List.replicate (k - 5) ' ' ++ c :: t2).takeWhile (fun d => !jsWs d) = [] := by
      rw [show k - 5 = (k - 6) + 1 by omega, List.replicate_succ, List.cons_append]
      exact List.takeWhile_cons_of_neg (by decide)
    have htl : (List.replicate k ' ' ++ c :: t2).take 21 =
        List.replicate k ' ' ++ (c :: t2.take (21 - k - 1)) := by
      rw [List.take_append_eq_append_take, List.take_of_length_le (by simp; omega)]
      congr 1
      rw [List.length_replicate, show 21 - k = (21 - k - 1) + 1 by omega]
      exact List.take_succ_cons
    have hfalse : ((List.replicate k ' ' ++ c :: t2).take 21).all jsWs = false := by
      rw [htl]
      simp [List.all_append, hc]
    refine ⟨?_, ?_, ?_⟩
    · simp only [featMatchFn, htk5, hdr5, hkey]
      simp
    · simp only [qualMatchFn, hfalse, Bool.and_false, Bool.false_eq_true, if_false]
    · simp only [contMatchFn, hfalse, Bool.and_false, Bool.false_eq_true, if_false]
  · intro ht
    have hlen : (List.replicate 21 ' ' : Str).length = 21 := by simp
    have htk : (List.replicate 21 ' ' ++ (List.replicate (n + 1) ' ' ++ t)).take 21 =
        List.replicate 21 ' ' := List.take_left' hlen
    have hdr : (List.replicate 21 ' ' ++ (List.replicate (n + 1) ' ' ++ t)).drop 21 =
        List.replicate (n + 1) ' ' ++ t := List.drop_left' hlen
    have hall : (List.replicate 21 ' ' : Str).all jsWs = true := by decide
    have hbody : (List.replicate (n + 1) ' ' ++ t).takeWhile (fun d => !isLineTerm d) =
        List.replicate (n + 1) ' ' ++ t := by
      refine takeWhile_of_all _ (fun d hd => ?_)
      rcases List.mem_append.mp hd with h | h
      · rcases List.eq_of_mem_replicate h with rfl
        decide
      · simp [ht d h]
    have hne : (List.replicate (n + 1) ' ' ++ t).isEmpty = false := by
      rw [List.replicate_succ, List.cons_append]
      rfl
    refine ⟨?_, ?_, ?_⟩
    · simp only [contMatchFn, htk, hdr, hlen, hall, hbody, hne, Bool.and_self, if_true]
      simp
    · have htk5 := take5_rep_append 21 (List.replicate (n + 1) ' ' ++ t) (by omega)
      have hdr5 := drop5_rep_append 21 (List.replicate (n + 1) ' ' ++ t) (by omega)
      have hkey : (List.replicate (21 - 5) ' ' ++ (List.replicate (n + 1) ' ' ++ t)).takeWhile
          (fun d => !jsWs d) = [] := by
        rw [show (21 : Nat) - 5 = 15 + 1 by omega, List.replicate_succ, List.cons_append]
        exact List.takeWhile_cons_of_neg (by decide)
      simp only [featMatchFn, htk5, hdr5, hkey]
      simp
    · have hdr2 : (List.replicate 21 ' ' ++ (List.replicate (n + 1) ' ' ++ t)).drop 21 =
          ' ' :: (List.replicate n ' ' ++ t) := by
        rw [hdr, List.replicate_succ, List.cons_append]
      rw [qualMatchFn, htk, hdr2]
      simp only [hlen, hall, Bool.and_self, if_true]
      rfl

/-- Witness for C3: a 10-space line is inert, a 22-space line is a
continuation match. -/
theorem C3_witness :
    featMatchFn (List.replicate 10 ' ' ++ 'x' :: []) = none ∧
    contMatchFn (List.replicate 21 ' ' ++ (List.replicate 1 ' ' ++ "de".toList)) =
      some (List.replicate 1 ' ' ++ "de".toList) := by
  refine ⟨((C3_indentation_exact 10 0 'x' ("de".toList) []).1
    (by decide) (by decide) (by decide)).1, ?_⟩
  exact ((C3_indentation_exact 10 0 'x' ("de".toList) []).2.1 (by decide)).1

/-! ### Claim C1 -/

/-- Claim C1 counterexample: in a feature with qualifier lines a, b, a and
then a continuation line, the value most recently inserted is the promoted
Multi under key a, but the continuation text is appended to key b (the
last key in object-key order), leaving the Multi under a untouched. -/
theorem C1_cex :
    (parseGenBank ("FEATURES\n     CDS             1..10\n                     /a=\"1\"\n                     /b=\"2\"\n                     /a=\"3\"\n                     xyz\n".toList)).features =
      [⟨"CDS".toList, "1..10".toList,
        [("a".toList, .multi [.strA "1".toList, .strA "3".toList]),
         ("b".toList, .one (.strA "2 xyz".toList))]⟩] ∧
    QualVal.multi [.strA "1".toList, .strA "3".toList] ≠
      QualVal.multi [.strA "1".toList, .strA "3 xyz".toList] := by
  constructor <;> decide

/-- Claim C1 (amended): a continuation line is appended to the value of
the last key in the object-key order of the qualifier mapping: when no key
is an array-index-like digit string this is the most recently first-added
key (a repeated key keeps its original position, so it is not necessarily
the key whose value was assigned last). The append goes to that string
value (trimmed join with a single space) or to the last element of that
Multi sequence, and never changes any other key. -/
theorem C1_continuation_target (qs : List (Str × QualVal)) (add : Str) :
    ((∀ k0 ∈ qs.map Prod.fst, isArrayIndexKey k0 = false) →
      lastObjKey qs = (qs.map Prod.fst).getLast?) ∧
    (∀ k, lastObjKey qs = some k →
      (∀ k2, k2 ≠ k → lookupAssoc (contAppend qs add) k2 = lookupAssoc qs k2) ∧
      (∀ v, lookupAssoc qs k = some (.one (.strA v)) →
        lookupAssoc (contAppend qs add) k = some (.one (.strA (jsTrim (v ++ ' ' :: add))))) ∧
      (∀ l, lookupAssoc qs k = some (.multi l) →
        lookupAssoc (contAppend qs add) k = some (.multi (appendLastAtom l add)))) := by
  constructor
  · intro hnk
    unfold lastObjKey jsObjKeys
    have h1 : (qs.map Prod.fst).filter isArrayIndexKey = [] := by
      rw [List.filter_eq_nil_iff]
      intro a ha
      simp [hnk a ha]
    have h2 : (qs.map Prod.fst).filter (fun k => !isArrayIndexKey k) = qs.map Prod.fst := by
      rw [List.filter_eq_self]
      intro a ha
      simp [hnk a ha]
    rw [h1, h2]
    rfl
  · intro k hk
    refine ⟨?_, ?_, ?_⟩
    · intro k2 hk2
      rcases hv : lookupAssoc qs k with _ | v
      · simp only [contAppend, hk, hv]
      · rcases v with a | l
        · rcases a with _ | v0
          · simp only [contAppend, hk, hv]
          · simp only [contAppend, hk, hv]
            exact lookup_setAssoc_other qs k k2 _ hk2
        · simp only [contAppend, hk, hv]
          exact lookup_setAssoc_other qs k k2 _ hk2
    · intro v hv
      simp only [contAppend, hk, hv]
      exact lookup_setAssoc_self qs k _
    · intro l hl
      simp only [contAppend, hk, hl]
      exact lookup_setAssoc_self qs k _

/-- Witness for C1 on the a, b, a mapping: the continuation lands on b and
a keeps its Multi value. -/
theorem C1_witness :
    lookupAssoc (contAppend
      [(['a'], .multi [.strA ['1'], .strA ['3']]), (['b'], .one (.strA ['2']))]
      ("xyz".toList)) ['b'] = some (.one (.strA "2 xyz".toList)) ∧
    lookupAssoc (contAppend
      [(['a'], .multi [.strA ['1'], .strA ['3']]), (['b'], .one (.strA ['2']))]
      ("xyz".toList)) ['a'] = some (.multi [.strA ['1'], .strA ['3']]) := by
  have h := (C1_continuation_target
    [(['a'], .multi [.strA ['1'], .strA ['3']]), (['b'], .one (.strA ['2']))]
    ("xyz".toList)).2 ['b'] (by decide)
  constructor
  · rw [h.2.1 ['2'] (by decide)]
    decide
  · rw [h.1 ['a'] (by decide)]
    decide

/-! ### Claim C7 -/

theorem takeWhile_append_end {p : Char → Bool} (y z : Str)
    (hy : ∀ c ∈ y, p c = true) (hz : z = [] ∨ p (z.headD 'x') = false) :
    (y ++ z).takeWhile p = y := by
  cases z with
  | nil => rw [List.append_nil]; exact takeWhile_of_all y hy
  | cons b t =>
    rcases hz with h | h
    · exact absurd h (by simp)
    · exact takeWhile_append_cons y b t hy (by simpa using h)

theorem isPref_through_append (pat : Str) (x : Char) (hx : ∀ c ∈ pat, c ≠ x) :
    ∀ (l rest2 : Str), pat.isPrefixOf (l ++ x :: rest2) = true → pat.isPrefixOf l = true := by
  induction pat with
  | nil => intro l rest2 _; simp [List.isPrefixOf_iff_prefix]
  | cons p pt ih =>
    intro l rest2 h
    rw [List.isPrefixOf_iff_prefix] at h ⊢
    cases l with
    | nil =>
      rw [List.nil_append] at h
      rcases (List.cons_prefix_cons.mp h) with ⟨rfl, _⟩
      exact absurd rfl (hx p (by simp))
    | cons a lt =>
      rw [List.cons_append] at h
      rcases List.cons_prefix_cons.mp h with ⟨rfl, h2⟩
      refine List.cons_prefix_cons.mpr ⟨rfl, ?_⟩
      have := ih (fun c hc => hx c (by simp [hc])) lt rest2
        (List.isPrefixOf_iff_prefix.mpr h2)
      exact List.isPrefixOf_iff_prefix.mp this

/-- A none result of the plain line-start search forces a none result of
the LOCUS pattern search: the pattern match requires the token at a line
start. -/
theorem locusSearchAux_none (cs : Str) : ∀ (b : Bool) (i : Nat),
    lineStartSearchAux locusTok cs b i = none → locusSearchAux cs b = none := by
  induction cs with
  | nil => intro b i _; rfl
  | cons c rest ih =>
    intro b i h
    cases hpf : (b && locusTok.isPrefixOf (c :: rest)) with
    | true =>
      simp only [lineStartSearchAux, hpf, if_true] at h
      exact absurd h (by simp)
    | false =>
      simp only [lineStartSearchAux, hpf, Bool.false_eq_true, if_false] at h
      have htail := ih (isLineTerm c) (i + 1) h
      cases b with
      | false => simpa [locusSearchAux] using htail
      | true =>
        have hpre : locusTok.isPrefixOf (c :: rest) = false := by simpa using hpf
        simp only [locusSearchAux, if_true]
        rw [show locusMatchAt (c :: rest) = none from by simp [locusMatchAt, hpre]]
        exact htail

/-- Scanning a terminator-free segment with the line-start flag down never
matches and never raises the flag. -/
theorem locusSearchAux_skip_false (m : Str) (suf : Str)
    (hm : ∀ c ∈ m, isLineTerm c = false) :
    locusSearchAux (m ++ suf) false = locusSearchAux suf false := by
  induction m with
  | nil => rfl
  | cons c t ih =>
    simp only [List.cons_append, locusSearchAux, Bool.false_eq_true, if_false]
    rw [hm c (by simp)]
    exact ih (fun d hd => hm d (by simp [hd]))

/-- Skipping one full line that does not start with the LOCUS token. -/
theorem locusSearchAux_skip_line (l rest : Str)
    (hl : ∀ c ∈ l, isLineTerm c = false)
    (hpre : locusTok.isPrefixOf l = false) :
    locusSearchAux (l ++ '\n' :: rest) true = locusSearchAux rest true := by
  have hnl : locusSearchAux ('\n' :: rest) false = locusSearchAux rest true := by
    simp only [locusSearchAux, Bool.false_eq_true, if_false]
    rfl
  cases l with
  | nil =>
    rw [List.nil_append]
    simp only [locusSearchAux, if_true]
    rw [show locusMatchAt ('\n' :: rest) = none from rfl]
    rfl
  | cons a t =>
    have hp2 : locusTok.isPrefixOf ((a :: t) ++ '\n' :: rest) = false := by
      cases hq : locusTok.isPrefixOf ((a :: t) ++ '\n' :: rest) with
      | false => rfl
      | true =>
        exact absurd (isPref_through_append locusTok '\n' (by decide) (a :: t) rest hq)
          (by simp [hpre])
    rw [List.cons_append]
    simp only [locusSearchAux, if_true]
    rw [show locusMatchAt (a :: (t ++ '\n' :: rest)) = none from by
      simp [locusMatchAt, show locusTok.isPrefixOf (a :: (t ++ '\n' :: rest)) = false from by
        simpa using hp2]]
    rw [hl a (by simp)]
    rw [locusSearchAux_skip_false t ('\n' :: rest) (fun d hd => hl d (by simp [hd]))]
    exact hnl

/-- The LOCUS pattern matches at the start of a line of the form token,
whitespace, content: the match is exactly that line. -/
theorem locusMatchAt_pos (r tail2 : Str)
    (hterm : ∀ c ∈ r, isLineTerm c = false)
    (hr : r ≠ []) (hw : jsWs (r.headD 'x') = true)
    (hnw : ∃ c ∈ r, jsWs c = false)
    (htail : tail2 = [] ∨ isLineTerm (tail2.headD 'x') = true) :
    locusMatchAt (locusTok ++ (r ++ tail2)) = some (locusTok ++ r) := by
  have hd : r.dropWhile jsWs ≠ [] := by
    intro h
    rcases hnw with ⟨c, hc, hcw⟩
    rw [List.dropWhile_eq_nil_iff] at h
    rw [h c hc] at hcw
    cases hcw
  obtain ⟨c0, r1, hd2⟩ : ∃ c0 r1, r.dropWhile jsWs = c0 :: r1 := by
    cases hdd : r.dropWhile jsWs with
    | nil => exact absurd hdd hd
    | cons a b => exact ⟨a, b, rfl⟩
  have hc0 : jsWs c0 = false := by
    have h1 := List.head?_dropWhile_not jsWs r
    rw [hd2] at h1
    simpa using h1
  have hsplit : r = r.takeWhile jsWs ++ c0 :: r1 := by
    rw [← hd2, List.takeWhile_append_dropWhile]
  have hw0ne : r.takeWhile jsWs ≠ [] := by
    cases r with
    | nil => exact absurd rfl hr
    | cons a t =>
      simp only [List.headD_cons] at hw
      rw [List.takeWhile_cons_of_pos hw]
      simp
  have hmemr : ∀ c, c ∈ c0 :: r1 → c ∈ r := by
    intro c hc
    rw [hsplit]
    exact List.mem_append_right _ hc
  have hpref : locusTok.isPrefixOf (locusTok ++ (r ++ tail2)) = true :=
    List.isPrefixOf_iff_prefix.mpr (List.prefix_append _ _)
  have hdrop5 : (locusTok ++ (r ++ tail2)).drop 5 = r ++ tail2 :=
    List.drop_left' (by decide)
  have hwtake : (r ++ tail2).takeWhile jsWs = r.takeWhile jsWs := by
    conv in r ++ tail2 => rw [hsplit]
    rw [List.append_assoc, List.cons_append]
    exact takeWhile_append_cons _ c0 _ (fun c hc => List.mem_takeWhile_imp hc) hc0
  have hwdrop : (r ++ tail2).drop (r.takeWhile jsWs).length = c0 :: (r1 ++ tail2) := by
    conv in r ++ tail2 => rw [hsplit]
    rw [List.append_assoc, List.cons_append]
    exact List.drop_left _ _
  have hb : (c0 :: (r1 ++ tail2)).takeWhile (fun c => !isLineTerm c) = c0 :: r1 := by
    rw [show c0 :: (r1 ++ tail2) = (c0 :: r1) ++ tail2 from by rw [List.cons_append]]
    refine takeWhile_append_end _ _ (fun c hc => ?_) ?_
    · simp [hterm c (hmemr c hc)]
    · cases tail2 with
      | nil => exact Or.inl rfl
      | cons b t =>
        right
        rcases htail with h | h
        · exact absurd h (by simp)
        · simp only [List.headD_cons] at h
          simp [h]
  simp only [locusMatchAt, hpref, if_true, hdrop5, hwtake, hwdrop, hb]
  rw [show (r.takeWhile jsWs).isEmpty = false from by
    cases hq : r.takeWhile jsWs with
    | nil => exact absurd hq hw0ne
    | cons a b => rfl]
  simp only [Bool.false_eq_true, if_false]
  rw [show (c0 :: r1).isEmpty = false from rfl]
  simp only [Bool.not_false, if_true]
  rw [List.append_assoc, ← hsplit]

/-- Unfolding the search at a position where the pattern matches. -/
theorem locusSearchAux_top (suf : Str) (m : Str) (hne : suf ≠ [])
    (h : locusMatchAt suf = some m) :
    locusSearchAux suf true = some m := by
  cases suf with
  | nil => exact absurd rfl hne
  | cons c rest => simp only [locusSearchAux, if_true, h]

/-- The locus field is the trimmed first LOCUS pattern match, whatever the
feature section does. -/
theorem parseGenBank_locus (cs : Str) :
    (parseGenBank cs).locus = (locusMatchJs cs).map jsTrim := by
  unfold parseGenBank
  cases lineStartSearch featuresTokS cs <;> rfl

/-- Claim C7 counterexample: an input consisting of the single line LOCUS
begins with the literal token, yet the locus field stays absent, because
the pattern requires whitespace and further content after the token. -/
theorem C7_cex :
    locusTok.isPrefixOf ("LOCUS".toList) = true ∧
    (parseGenBank ("LOCUS".toList)).locus = none := by
  constructor <;> decide

/-- Claim C7 (amended): a line beginning with LOCUS sets the locus field
only when the token is followed by at least one whitespace character and,
on the same line, at least one further non-whitespace character; then the
first such line is stored, entire and trimmed, whatever else the document
holds, and parsing continues. When no line starts with the token at all,
the locus field is absent and this is not an error. Here the document is
any sequence of terminator-free non-LOCUS lines, then the LOCUS line, then
an arbitrary remainder starting at a line break. -/
theorem C7_locus_verbatim (cs : Str) (pre : List Str) (r tail2 : Str) :
    (lineStartSearch locusTok cs = none → (parseGenBank cs).locus = none) ∧
    ((∀ l ∈ pre, (∀ c ∈ l, isLineTerm c = false) ∧ locusTok.isPrefixOf l = false) →
      (∀ c ∈ r, isLineTerm c = false) → r ≠ [] → jsWs (r.headD 'x') = true →
      (∃ c ∈ r, jsWs c = false) →
      (tail2 = [] ∨ isLineTerm (tail2.headD 'x') = true) →
      (parseGenBank (pre.foldr (fun l acc => l ++ '\n' :: acc)
          (locusTok ++ (r ++ tail2)))).locus = some (jsTrim (locusTok ++ r))) := by
  constructor
  · intro h
    rw [parseGenBank_locus]
    rw [show locusMatchJs cs = none from locusSearchAux_none cs true 0 h]
    rfl
  · intro hpre hterm hr hw hnw htail
    rw [parseGenBank_locus]
    have hfind : locusMatchJs (pre.foldr (fun l acc => l ++ '\n' :: acc)
        (locusTok ++ (r ++ tail2))) = some (locusTok ++ r) := by
      unfold locusMatchJs
      induction pre with
      | nil =>
        simp only [List.foldr_nil]
        exact locusSearchAux_top _ _ (by simp [locusTok]) (locusMatchAt_pos r tail2 hterm hr hw hnw htail)
      | cons l pt ih =>
        simp only [List.foldr_cons]
        rw [locusSearchAux_skip_line l _ (hpre l (by simp)).1 (hpre l (by simp)).2]
        exact ih (fun l2 hl2 => hpre l2 (by simp [hl2]))
    rw [hfind]
    rfl

/-- Witness for C7: a LOCUS line after an ordinary line is captured whole
and trimmed. -/
theorem C7_witness :
    (parseGenBank ("DEFINITION x\nLOCUS NC_1\nFEATURES".toList)).locus =
      some ("LOCUS NC_1".toList) := by
  have h := (C7_locus_verbatim [] ["DEFINITION x".toList] (" NC_1".toList)
      ("\nFEATURES".toList)).2
    (by decide) (by decide) (by decide) (by decide) ⟨'N', by decide⟩ (by decide)
  rw [show ("DEFINITION x\nLOCUS NC_1\nFEATURES".toList : Str) =
    (["DEFINITION x".toList] : List Str).foldr (fun l acc => l ++ '\n' :: acc)
      (locusTok ++ (" NC_1".toList ++ "\nFEATURES".toList)) from by decide]
  rw [h]
  decide

/-! ### Claim C8: splitter scanning machinery -/

/-- No chunk delimiter inside the scanned text: no `>` sits at a position
whose line-start flag would be up (start flag given, then after any line
terminator). -/
def cleanScan : Bool → Str → Bool
  | _, [] => true
  | b, c :: t => (!(b && (c = '>'))) && cleanScan (isLineTerm c) t

/-- The flag value after scanning a segment. -/
def endFlag (b : Bool) : Str → Bool
  | [] => b
  | c :: t => endFlag (isLineTerm c) t

theorem cleanScan_false_of (b : Bool) (l : Str) (h : cleanScan b l = true) :
    cleanScan false l = true := by
  cases l with
  | nil => rfl
  | cons c t =>
    simp only [cleanScan, Bool.and_eq_true] at h ⊢
    exact ⟨by simp, h.2⟩

theorem endFlag_append (x y : Str) : ∀ b, endFlag b (x ++ y) = endFlag (endFlag b x) y := by
  induction x with
  | nil => intro b; rfl
  | cons c t ih =>
    intro b
    simp only [List.cons_append, endFlag]
    exact ih (isLineTerm c)

theorem cleanScan_append (x y : Str) :
    ∀ b, cleanScan b (x ++ y) = (cleanScan b x && cleanScan (endFlag b x) y) := by
  induction x with
  | nil => intro b; simp [cleanScan, endFlag]
  | cons c t ih =>
    intro b
    rw [show cleanScan b ((c :: t) ++ y) =
      ((!(b && decide (c = '>'))) && cleanScan (isLineTerm c) (t ++ y)) from rfl]
    rw [ih (isLineTerm c)]
    rw [show cleanScan b (c :: t) =
      ((!(b && decide (c = '>'))) && cleanScan (isLineTerm c) t) from rfl]
    rw [show endFlag b (c :: t) = endFlag (isLineTerm c) t from rfl]
    rw [Bool.and_assoc]

theorem cleanScan_of_no_gt (l : Str) (h : ∀ c ∈ l, c ≠ '>') :
    ∀ b, cleanScan b l = true := by
  induction l with
  | nil => intro b; rfl
  | cons c t ih =>
    intro b
    show ((!(b && decide (c = '>'))) && cleanScan (isLineTerm c) t) = true
    rw [ih (fun d hd => h d (by simp [hd])) (isLineTerm c)]
    simp [h c (by simp)]

theorem cleanScan_of_infix (s t : Str) (h : cleanScan false s = true)
    (hinf : t <:+: s) : cleanScan false t = true := by
  rcases hinf with ⟨u, w, rfl⟩
  rw [cleanScan_append, Bool.and_eq_true] at h
  have h2 := h.1
  rw [cleanScan_append, Bool.and_eq_true] at h2
  exact cleanScan_false_of _ _ h2.2

/-- A clean segment is scanned into a single chunk. -/
theorem fastaSplitAux_clean (l : Str) : ∀ (b : Bool) (acc : Str),
    cleanScan b l = true → fastaSplitAux l b acc = [acc.reverse ++ l] := by
  induction l with
  | nil => intro b acc _; simp [fastaSplitAux]
  | cons c t ih =>
    intro b acc h
    rw [show cleanScan b (c :: t) =
      ((!(b && decide (c = '>'))) && cleanScan (isLineTerm c) t) from rfl,
      Bool.and_eq_true] at h
    have hbc : (b && decide (c = '>')) = false := by
      rcases h with ⟨h1, _⟩
      cases hx : (b && decide (c = '>')) with
      | false => rfl
      | true => rw [hx] at h1; exact absurd h1 (by decide)
    simp only [fastaSplitAux, hbc, Bool.false_eq_true, if_false]
    rw [ih (isLineTerm c) (c :: acc) h.2]
    simp

/-- Every chunk produced by the splitter is clean. -/
theorem fastaSplitAux_chunks_clean (l : Str) :
    ∀ (b : Bool) (acc : Str),
      cleanScan false acc.reverse = true →
      (acc = [] ∨ endFlag false acc.reverse = b) →
      ∀ ch ∈ fastaSplitAux l b acc, cleanScan false ch = true := by
  induction l with
  | nil =>
    intro b acc hacc _ ch hch
    simp only [fastaSplitAux, List.mem_singleton] at hch
    subst hch
    exact hacc
  | cons c t ih =>
    intro b acc hacc hflag ch hch
    by_cases hsp : (b && decide (c = '>')) = true
    · simp only [fastaSplitAux, hsp, if_true, List.mem_cons] at hch
      rcases hch with rfl | hch
      · exact hacc
      · exact ih false [] rfl (Or.inl rfl) ch hch
    · have hsp2 : (b && decide (c = '>')) = false := by simpa using hsp
      simp only [fastaSplitAux, hsp2, Bool.false_eq_true, if_false] at hch
      refine ih (isLineTerm c) (c :: acc) ?_ ?_ ch hch
      · rw [List.reverse_cons, cleanScan_append, hacc, Bool.true_and]
        rcases hflag with rfl | hf
        · rfl
        · rw [hf]
          show ((!(b && decide (c = '>'))) && cleanScan (isLineTerm c) []) = true
          simp [hsp2, cleanScan]
      · right
        rw [List.reverse_cons, endFlag_append]
        rfl

theorem fastaSplit_chunks_clean (cs : Str) :
    ∀ ch ∈ fastaSplit cs, cleanScan false ch = true :=
  fastaSplitAux_chunks_clean cs true [] rfl (Or.inl rfl)

/-! ### Claim C8: line-splitting lemmas -/

theorem splitLinesAux_cons_step (c : Char) (rest acc : Str)
    (h2 : c ≠ '\n') (h1 : ¬(c = '\r' ∧ rest.headD ' ' = '\n')) :
    splitLinesAux (c :: rest) acc = splitLinesAux rest (c :: acc) := by
  rw [splitLinesAux.eq_def]
  split
  · rename_i heq
    cases heq
  · rename_i r acc2 heq
    injection heq with hc hrest
    exact absurd ⟨hc, by rw [hrest]; rfl⟩ h1
  · rename_i rest2 acc2 heq
    injection heq with hc hrest
    exact absurd hc h2
  · rename_i c2 rest2 acc2 hne1 hne2 heq
    injection heq with hc hrest
    rw [hc, hrest]

theorem splitLinesAux_headD (s acc : Str) :
    ∃ p, (splitLinesAux s acc).headD [] = acc.reverse ++ p ∧ p <+: s ∧ '\n' ∉ p := by
  induction s, acc using splitLinesAux.induct with
  | case1 acc => exact ⟨[], by simp [splitLinesAux], List.nil_prefix, by simp⟩
  | case2 rest acc ih => exact ⟨[], by simp [splitLinesAux], List.nil_prefix, by simp⟩
  | case3 rest acc ih => exact ⟨[], by simp [splitLinesAux], List.nil_prefix, by simp⟩
  | case4 c rest acc h1 h2 ih =>
    rcases ih with ⟨p, hp1, hp2, hp3⟩
    have hstep := splitLinesAux_cons_step c rest acc h2 (by
      intro hcr
      rcases hcr with ⟨hc, hh⟩
      cases rest with
      | nil => simp at hh
      | cons r0 rt =>
        simp only [List.headD_cons] at hh
        exact h1 rt hc (by rw [hh]))
    refine ⟨c :: p, ?_, ?_, ?_⟩
    · rw [hstep, hp1]
      simp
    · exact List.cons_prefix_cons.mpr ⟨rfl, hp2⟩
    · intro hmem
      rcases List.mem_cons.mp hmem with hc | hc
      · exact h2 hc.symm
      · exact hp3 hc

theorem splitLinesAux_no_newline (l : Str) (hl : '\n' ∉ l) :
    ∀ acc, splitLinesAux l acc = [acc.reverse ++ l] := by
  induction l with
  | nil => intro acc; simp [splitLinesAux]
  | cons c t ih =>
    intro acc
    rw [splitLinesAux_cons_step c t acc (fun h => hl (by simp [h])) ?_]
    · rw [ih (fun h => hl (by simp [h])) (c :: acc)]
      simp
    · intro hcr
      rcases hcr with ⟨hc, hh⟩
      cases t with
      | nil => simp at hh
      | cons t0 tt =>
        simp only [List.headD_cons] at hh
        exact hl (by simp [hh])

theorem splitLinesAux_line_break (h : Str) (hnl : '\n' ∉ h) (hcr : h.getLast? ≠ some '\r') :
    ∀ (rest acc : Str),
      splitLinesAux (h ++ '\n' :: rest) acc = (acc.reverse ++ h) :: splitLinesAux rest [] := by
  induction h with
  | nil =>
    intro rest acc
    rw [List.nil_append]
    rw [show splitLinesAux ('\n' :: rest) acc = acc.reverse :: splitLinesAux rest [] from rfl]
    simp
  | cons c t ih =>
    intro rest acc
    rw [List.cons_append]
    rw [splitLinesAux_cons_step c (t ++ '\n' :: rest) acc (fun hx => hnl (by simp [hx])) ?_]
    · rw [ih (fun hx => hnl (by simp [hx])) ?_ rest (c :: acc)]
      · simp
      · cases t with
        | nil => simp
        | cons t0 tt =>
          intro hx
          rw [List.getLast?_cons_cons] at hcr
          exact hcr hx
    · intro hcr2
      rcases hcr2 with ⟨hc, hh⟩
      cases t with
      | nil =>
        subst hc
        exact hcr (by rfl)
      | cons t0 tt =>
        rw [List.cons_append, List.headD_cons] at hh
        exact hnl (by simp [hh])

theorem splitLines_no_newline (l : Str) (hl : '\n' ∉ l) : splitLines l = [l] := by
  unfold splitLines
  rw [splitLinesAux_no_newline l hl []]
  rfl

theorem splitLines_break (h rest : Str) (hnl : '\n' ∉ h) (hcr : h.getLast? ≠ some '\r') :
    splitLines (h ++ '\n' :: rest) = h :: splitLines rest := by
  unfold splitLines
  rw [splitLinesAux_line_break h hnl hcr rest []]
  rfl

/-! ### Claim C8: trimming lemmas -/

theorem jsTrim_pre_drop (s : Str) : jsTrim s <+: s.dropWhile jsWs := by
  rw [← List.reverse_suffix]
  unfold jsTrim
  rw [List.reverse_reverse]
  exact List.dropWhile_suffix jsWs

theorem jsTrim_within (s : Str) : jsTrim s <:+: s :=
  (jsTrim_pre_drop s).isInfix.trans (List.dropWhile_suffix jsWs).isInfix

theorem jsTrim_ne_of_head (c : Char) (p : Str) (hc : jsWs c = false) :
    jsTrim (c :: p) ≠ [] := by
  unfold jsTrim
  intro h
  rw [List.reverse_eq_nil_iff, List.dropWhile_eq_nil_iff] at h
  have h2 : jsWs c = true := by
    refine h c ?_
    rw [List.mem_reverse, List.dropWhile_cons_of_neg (by simp [hc])]
    simp
  rw [h2] at hc
  cases hc

theorem headD_of_pre (x y : Str) (h : x <+: y) (hx : x ≠ []) (d : Char) :
    x.headD d = y.headD d := by
  rcases h with ⟨z, rfl⟩
  cases x with
  | nil => exact absurd rfl hx
  | cons a t => rfl

theorem dropWhile_ne_of_trim (s : Str) (h : jsTrim s ≠ []) : s.dropWhile jsWs ≠ [] := by
  intro h0
  apply h
  unfold jsTrim
  rw [h0]
  rfl

theorem jsTrim_head_not_ws (s : Str) (h : jsTrim s ≠ []) :
    jsWs ((jsTrim s).headD ' ') = false := by
  rw [headD_of_pre _ _ (jsTrim_pre_drop s) h ' ']
  have hne := dropWhile_ne_of_trim s h
  have hd := List.head?_dropWhile_not jsWs s
  cases hq : (s.dropWhile jsWs).head? with
  | none =>
    rw [List.head?_eq_none_iff] at hq
    exact absurd hq hne
  | some a =>
    rw [hq] at hd
    rw [List.headD_eq_head?, hq]
    simpa using hd

theorem jsTrim_last_not_ws (s : Str) (h : jsTrim s ≠ []) :
    jsWs ((jsTrim s).getLastD ' ') = false := by
  have hrev : (jsTrim s).reverse = ((s.dropWhile jsWs).reverse).dropWhile jsWs := by
    unfold jsTrim
    rw [List.reverse_reverse]
  have hne : (jsTrim s).reverse ≠ [] := by simpa using h
  rw [List.getLastD_eq_getLast?, List.getLast?_eq_head?_reverse, hrev]
  have hd := List.head?_dropWhile_not jsWs ((s.dropWhile jsWs).reverse)
  cases hq : (((s.dropWhile jsWs).reverse).dropWhile jsWs).head? with
  | none =>
    rw [hrev] at hne
    rw [List.head?_eq_none_iff] at hq
    exact absurd hq hne
  | some a =>
    rw [hq] at hd
    simpa using hd

theorem jsTrim_eq_self (s : Str) (hne : s ≠ [])
    (hh : jsWs (s.headD ' ') = false) (hl : jsWs (s.getLastD ' ') = false) :
    jsTrim s = s := by
  unfold jsTrim
  have h1 : s.dropWhile jsWs = s := by
    cases s with
    | nil => rfl
    | cons a t =>
      simp only [List.headD_cons] at hh
      exact List.dropWhile_cons_of_neg (by simp [hh])
  rw [h1]
  have h2 : (s.reverse).dropWhile jsWs = s.reverse := by
    cases hq : s.reverse with
    | nil => rfl
    | cons a t =>
      have ha : s.getLastD ' ' = a := by
        rw [List.getLastD_eq_getLast?, List.getLast?_eq_head?_reverse, hq]
        rfl
      rw [ha] at hl
      exact List.dropWhile_cons_of_neg (by simp [hl])
  rw [h2, List.reverse_reverse]

/-! ### Claim C8: chunk and join lemmas -/

theorem chunksOf_facts (w : Nat) (s : Str) :
    ∀ ch ∈ chunksOf w s, ch ≠ [] ∧ ∀ c ∈ ch, c ∈ s := by
  induction s using chunksOf.induct w with
  | case1 => intro ch hch; simp [chunksOf] at hch
  | case2 c rest ih =>
    intro ch hch
    rw [show chunksOf w (c :: rest) = (c :: rest.take w) :: chunksOf w (rest.drop w) from by
      rw [chunksOf]] at hch
    rcases List.mem_cons.mp hch with rfl | hch
    · refine ⟨by simp, ?_⟩
      intro d hd
      rcases List.mem_cons.mp hd with rfl | hd
      · simp
      · exact List.mem_cons_of_mem c (List.take_subset w rest hd)
    · rcases ih ch hch with ⟨h1, h2⟩
      exact ⟨h1, fun d hd => List.mem_cons_of_mem c (List.drop_subset w rest (h2 d hd))⟩

theorem flatten_chunksOf (w : Nat) (s : Str) : (chunksOf w s).flatten = s := by
  induction s using chunksOf.induct w with
  | case1 => simp [chunksOf]
  | case2 c rest ih =>
    rw [show chunksOf w (c :: rest) = (c :: rest.take w) :: chunksOf w (rest.drop w) from by
      rw [chunksOf]]
    rw [List.flatten_cons, ih, List.cons_append, List.take_append_drop]

theorem chunksOf_ne_nil (w : Nat) (c : Char) (rest : Str) :
    chunksOf w (c :: rest) ≠ [] := by
  rw [show chunksOf w (c :: rest) = (c :: rest.take w) :: chunksOf w (rest.drop w) from by
    rw [chunksOf]]
  simp

theorem getLastD_mem (l : Str) (hl : l ≠ []) (d : Char) : l.getLastD d ∈ l := by
  induction l with
  | nil => exact absurd rfl hl
  | cons a t ih =>
    cases t with
    | nil => simp
    | cons b t2 =>
      rw [List.getLastD_eq_getLast?, List.getLast?_cons_cons, ← List.getLastD_eq_getLast?]
      exact List.mem_cons_of_mem a (ih (by simp))

theorem joinNL_last (cl : List Str) (hcl : cl ≠ []) (hne : ∀ ch ∈ cl, ch ≠ []) :
    joinNL cl ≠ [] ∧ ∃ ch ∈ cl, (joinNL cl).getLastD ' ' = ch.getLastD ' ' := by
  induction cl with
  | nil => exact absurd rfl hcl
  | cons l ls ih =>
    cases ls with
    | nil => exact ⟨hne l (by simp), ⟨l, by simp, rfl⟩⟩
    | cons l2 ls2 =>
      rcases ih (by simp) (fun ch hch => hne ch (by simp [List.mem_cons.mp hch])) with
        ⟨ih1, ch, hch, ih2⟩
      rw [show joinNL (l :: l2 :: ls2) = l ++ '\n' :: joinNL (l2 :: ls2) from rfl]
      constructor
      · simp
      · refine ⟨ch, by simp [List.mem_cons.mp hch], ?_⟩
        rw [List.getLastD_eq_getLast?, List.getLast?_append]
        have hj : ('\n' :: joinNL (l2 :: ls2)).getLast? = (joinNL (l2 :: ls2)).getLast? := by
          cases hq : joinNL (l2 :: ls2) with
          | nil => exact absurd hq ih1
          | cons a t => rw [List.getLast?_cons_cons]
        rw [hj]
        rw [List.getLastD_eq_getLast?] at ih2
        cases hq2 : (joinNL (l2 :: ls2)).getLast? with
        | none =>
          rw [List.getLast?_eq_none_iff] at hq2
          exact absurd hq2 ih1
        | some a =>
          rw [hq2] at ih2
          simpa using ih2

theorem joinNL_mem (cl : List Str) :
    ∀ c ∈ joinNL cl, c = '\n' ∨ ∃ ch ∈ cl, c ∈ ch := by
  induction cl with
  | nil => intro c hc; simp [joinNL] at hc
  | cons l ls ih =>
    cases ls with
    | nil =>
      intro c hc
      exact Or.inr ⟨l, by simp, hc⟩
    | cons l2 ls2 =>
      intro c hc
      rw [show joinNL (l :: l2 :: ls2) = l ++ '\n' :: joinNL (l2 :: ls2) from rfl] at hc
      rcases List.mem_append.mp hc with hc | hc
      · exact Or.inr ⟨l, by simp, hc⟩
      · rcases List.mem_cons.mp hc with rfl | hc
        · exact Or.inl rfl
        · rcases ih c hc with h | ⟨ch, hch, hcch⟩
          · exact Or.inl h
          · exact Or.inr ⟨ch, by simp [hch], hcch⟩

theorem splitLines_joinNL (cl : List Str) (hcl : cl ≠ [])
    (hch : ∀ ch ∈ cl, '\n' ∉ ch ∧ '\r' ∉ ch) :
    splitLines (joinNL cl) = cl := by
  induction cl with
  | nil => exact absurd rfl hcl
  | cons l ls ih =>
    cases ls with
    | nil =>
      rw [show joinNL [l] = l from rfl]
      exact splitLines_no_newline l (hch l (by simp)).1
    | cons l2 ls2 =>
      rw [show joinNL (l :: l2 :: ls2) = l ++ '\n' :: joinNL (l2 :: ls2) from rfl]
      rw [splitLines_break l _ (hch l (by simp)).1 ?_]
      · rw [ih (by simp) (fun ch h2 => hch ch (by simp [List.mem_cons.mp h2]))]
      · intro hq
        have : '\r' ∈ l := by
          have := getLastD_mem l ?_ ' '
          · rw [List.getLastD_eq_getLast?, hq] at this
            simpa using this
          · intro h0
            rw [h0] at hq
            simp at hq
        exact (hch l (by simp)).2 this

/-! ### Claim C8: invariants of produced records -/

theorem getLastD_append (x y : Str) (hy : y ≠ []) (d : Char) :
    (x ++ y).getLastD d = y.getLastD d := by
  rw [List.getLastD_eq_getLast?, List.getLastD_eq_getLast?, List.getLast?_append]
  cases hq : y.getLast? with
  | none =>
    rw [List.getLast?_eq_none_iff] at hq
    exact absurd hq hy
  | some a => rfl

theorem parseFasta_record_facts (t0 : Str) (r : FastaRecord) (hr : r ∈ parseFasta t0) :
    r.header ≠ [] ∧ jsWs (r.header.headD ' ') = false ∧
    jsWs (r.header.getLastD ' ') = false ∧ '\n' ∉ r.header ∧
    cleanScan false r.header = true ∧ (∀ c ∈ r.sequence, jsWs c = false) := by
  unfold parseFasta at hr
  rcases List.mem_map.mp hr with ⟨tc, htc, rfl⟩
  rw [List.mem_filter] at htc
  rcases htc with ⟨hmem, hnemp⟩
  rcases List.mem_map.mp hmem with ⟨ch, hch, rfl⟩
  have htcne : jsTrim ch ≠ [] := by simpa using hnemp
  have hclean_tc : cleanScan false (jsTrim ch) = true :=
    cleanScan_of_infix ch _ (fastaSplit_chunks_clean t0 ch hch) (jsTrim_within ch)
  have hhd := jsTrim_head_not_ws ch htcne
  obtain ⟨c, t, htceq⟩ : ∃ c t, jsTrim ch = c :: t := by
    cases hq : jsTrim ch with
    | nil => exact absurd hq htcne
    | cons a b => exact ⟨a, b, rfl⟩
  rw [htceq] at hhd
  simp only [List.headD_cons] at hhd
  have hcn : c ≠ '\n' := fun hx => by rw [hx] at hhd; exact absurd hhd (by decide)
  have hcr : c ≠ '\r' := fun hx => by rw [hx] at hhd; exact absurd hhd (by decide)
  have hstep : splitLines (c :: t) = splitLinesAux t [c] := by
    unfold splitLines
    refine splitLinesAux_cons_step c t [] hcn ?_
    intro hq
    exact hcr hq.1
  obtain ⟨p, hp1, hp2, hp3⟩ := splitLinesAux_headD t [c]
  have hline : (splitLines (jsTrim ch)).headD [] = c :: p := by
    rw [htceq, hstep, hp1]
    rfl
  have hLpre : (c :: p) <+: jsTrim ch := by
    rw [htceq]
    exact List.cons_prefix_cons.mpr ⟨rfl, hp2⟩
  have hhead_eq : (fastaRecordOfChunk (jsTrim ch)).header = jsTrim (c :: p) := by
    show jsTrim ((splitLines (jsTrim ch)).headD []) = jsTrim (c :: p)
    rw [hline]
  have hHne : jsTrim (c :: p) ≠ [] := jsTrim_ne_of_head c p hhd
  have hHinf : jsTrim (c :: p) <:+: jsTrim ch :=
    (jsTrim_within (c :: p)).trans hLpre.isInfix
  refine ⟨?_, ?_, ?_, ?_, ?_, ?_⟩
  · rw [hhead_eq]; exact hHne
  · rw [hhead_eq]; exact jsTrim_head_not_ws _ hHne
  · rw [hhead_eq]; exact jsTrim_last_not_ws _ hHne
  · rw [hhead_eq]
    intro hmem
    have hmem2 : '\n' ∈ c :: p := (jsTrim_within (c :: p)).subset hmem
    rcases List.mem_cons.mp hmem2 with hq | hq
    · exact hcn hq.symm
    · exact hp3 hq
  · rw [hhead_eq]
    exact cleanScan_of_infix _ _ hclean_tc hHinf
  · intro d hd
    have hd2 : d ∈ (splitLines (jsTrim ch)).tail.flatten.filter (fun c => !jsWs c) := hd
    have h3 := List.of_mem_filter hd2
    simpa using h3

/-! ### Claim C8: reassembly -/

theorem parseFasta_reassemble (h0 s : Str) (w : Nat)
    (hh : h0 ≠ []) (hhd : jsWs (h0.headD ' ') = false) (hlast : jsWs (h0.getLastD ' ') = false)
    (hnl : '\n' ∉ h0) (hclean : cleanScan false h0 = true)
    (hs : ∀ c ∈ s, jsWs c = false) (hgt : '>' ∉ s) :
    parseFasta (rewrapFasta w h0 s) = [⟨h0, s, s.length⟩] := by
  have hChFacts := chunksOf_facts w s
  have hChNe : ∀ ch ∈ chunksOf w s, ch ≠ [] := fun ch hc => (hChFacts ch hc).1
  have hChWs : ∀ ch ∈ chunksOf w s, ∀ c ∈ ch, jsWs c = false :=
    fun ch hc c hcc => hs c ((hChFacts ch hc).2 c hcc)
  have hWchars : ∀ c ∈ joinNL (chunksOf w s), c ≠ '>' := by
    intro c hc
    rcases joinNL_mem _ c hc with rfl | ⟨ch, hch2, hcc⟩
    · decide
    · intro he
      exact hgt (by rw [← he]; exact (hChFacts ch hch2).2 c hcc)
  have hscX : cleanScan false (h0 ++ '\n' :: joinNL (chunksOf w s)) = true := by
    rw [cleanScan_append, hclean, Bool.true_and]
    rw [show cleanScan (endFlag false h0) ('\n' :: joinNL (chunksOf w s)) =
      ((!((endFlag false h0) && false)) && cleanScan true (joinNL (chunksOf w s))) from rfl]
    rw [Bool.and_false]
    rw [cleanScan_of_no_gt _ hWchars true]
    rfl
  have hsplit : fastaSplit ('>' :: (h0 ++ '\n' :: joinNL (chunksOf w s))) =
      [[], h0 ++ '\n' :: joinNL (chunksOf w s)] := by
    unfold fastaSplit
    rw [show fastaSplitAux ('>' :: (h0 ++ '\n' :: joinNL (chunksOf w s))) true [] =
      ([] : Str).reverse :: fastaSplitAux (h0 ++ '\n' :: joinNL (chunksOf w s)) false []
      from rfl]
    rw [fastaSplitAux_clean _ false [] hscX]
    rfl
  rw [show rewrapFasta w h0 s = '>' :: (h0 ++ '\n' :: joinNL (chunksOf w s)) from rfl]
  unfold parseFasta
  rw [hsplit]
  cases s with
  | nil =>
    rw [show chunksOf w ([] : Str) = [] from by rw [chunksOf]]
    rw [show ([[], h0 ++ '\n' :: joinNL []] : List Str).map jsTrim =
      [[], jsTrim (h0 ++ ['\n'])] from rfl]
    have htr : jsTrim (h0 ++ ['\n']) = h0 := by
      unfold jsTrim
      have h1 : (h0 ++ ['\n']).dropWhile jsWs = h0 ++ ['\n'] := by
        cases h0 with
        | nil => exact absurd rfl hh
        | cons a t =>
          rw [List.cons_append]
          simp only [List.headD_cons] at hhd
          exact List.dropWhile_cons_of_neg (by simp [hhd])
      rw [h1, List.reverse_append]
      rw [show ((['\n'] : Str).reverse ++ h0.reverse) = '\n' :: h0.reverse from rfl]
      rw [List.dropWhile_cons_of_pos (by decide)]
      have h2 : h0.reverse.dropWhile jsWs = h0.reverse := by
        cases hq : h0.reverse with
        | nil => rfl
        | cons a t =>
          have ha : h0.getLastD ' ' = a := by
            rw [List.getLastD_eq_getLast?, List.getLast?_eq_head?_reverse, hq]
            rfl
          rw [ha] at hlast
          exact List.dropWhile_cons_of_neg (by simp [hlast])
      rw [h2, List.reverse_reverse]
    rw [htr]
    have hEmp : h0.isEmpty = false := List.isEmpty_eq_false.mpr hh
    rw [show ([[], h0] : List Str).filter (fun s2 => !s2.isEmpty) = [h0] from by
      simp [List.filter_cons, hEmp]]
    have hrec : fastaRecordOfChunk h0 = ⟨h0, [], 0⟩ := by
      show (⟨jsTrim ((splitLines h0).headD []),
        (splitLines h0).tail.flatten.filter (fun c => !jsWs c),
        ((splitLines h0).tail.flatten.filter (fun c => !jsWs c)).length⟩ : FastaRecord) =
        ⟨h0, [], 0⟩
      rw [splitLines_no_newline h0 hnl]
      rw [show (([h0] : List Str).headD []) = h0 from rfl]
      rw [show ([h0] : List Str).tail = [] from rfl]
      rw [jsTrim_eq_self h0 hh hhd hlast]
      rfl
    rw [show List.map fastaRecordOfChunk [h0] = [fastaRecordOfChunk h0] from rfl, hrec]
    rfl
  | cons c0 s' =>
    have hClNe : chunksOf w (c0 :: s') ≠ [] := chunksOf_ne_nil w c0 s'
    obtain ⟨hWne, ch0, hch0, hWlastEq⟩ := joinNL_last _ hClNe hChNe
    have hWlastWs : jsWs ((joinNL (chunksOf w (c0 :: s'))).getLastD ' ') = false := by
      rw [hWlastEq]
      exact hChWs ch0 hch0 _ (getLastD_mem ch0 (hChNe ch0 hch0) ' ')
    have hXhd : ((h0 ++ '\n' :: joinNL (chunksOf w (c0 :: s'))).headD ' ') = h0.headD ' ' := by
      cases h0 with
      | nil => exact absurd rfl hh
      | cons a t => rfl
    have hXlast : ((h0 ++ '\n' :: joinNL (chunksOf w (c0 :: s'))).getLastD ' ') =
        ((joinNL (chunksOf w (c0 :: s'))).getLastD ' ') := by
      rw [getLastD_append _ _ (by simp) ' ']
      rw [show ('\n' :: joinNL (chunksOf w (c0 :: s')) : Str) =
        ['\n'] ++ joinNL (chunksOf w (c0 :: s')) from rfl]
      rw [getLastD_append _ _ hWne ' ']
    have htr : jsTrim (h0 ++ '\n' :: joinNL (chunksOf w (c0 :: s'))) =
        h0 ++ '\n' :: joinNL (chunksOf w (c0 :: s')) := by
      refine jsTrim_eq_self _ (by simp) ?_ ?_
      · rw [hXhd]; exact hhd
      · rw [hXlast]; exact hWlastWs
    rw [show ([[], h0 ++ '\n' :: joinNL (chunksOf w (c0 :: s'))] : List Str).map jsTrim =
      [[], jsTrim (h0 ++ '\n' :: joinNL (chunksOf w (c0 :: s')))] from rfl]
    rw [htr]
    have hXEmp : (h0 ++ '\n' :: joinNL (chunksOf w (c0 :: s'))).isEmpty = false := by
      rw [List.isEmpty_eq_false]
      simp
    rw [show ([[], h0 ++ '\n' :: joinNL (chunksOf w (c0 :: s'))] : List Str).filter
        (fun s2 => !s2.isEmpty) = [h0 ++ '\n' :: joinNL (chunksOf w (c0 :: s'))] from by
      simp [List.filter_cons, hXEmp]]
    rw [show List.map fastaRecordOfChunk [h0 ++ '\n' :: joinNL (chunksOf w (c0 :: s'))] =
      [fastaRecordOfChunk (h0 ++ '\n' :: joinNL (chunksOf w (c0 :: s')))] from rfl]
    have hcr0 : h0.getLast? ≠ some '\r' := by
      intro hq
      rw [List.getLastD_eq_getLast?, hq] at hlast
      exact absurd hlast (by decide)
    have hchnr : ∀ ch ∈ chunksOf w (c0 :: s'), '\n' ∉ ch ∧ '\r' ∉ ch := by
      intro ch hc
      exact ⟨fun hmem => absurd (hChWs ch hc '\n' hmem) (by decide),
             fun hmem => absurd (hChWs ch hc '\r' hmem) (by decide)⟩
    have hsl : splitLines (h0 ++ '\n' :: joinNL (chunksOf w (c0 :: s'))) =
        h0 :: chunksOf w (c0 :: s') := by
      rw [splitLines_break h0 _ hnl hcr0]
      rw [splitLines_joinNL _ hClNe hchnr]
    have hrec : fastaRecordOfChunk (h0 ++ '\n' :: joinNL (chunksOf w (c0 :: s'))) =
        ⟨h0, c0 :: s', (c0 :: s').length⟩ := by
      show (⟨jsTrim ((splitLines (h0 ++ '\n' :: joinNL (chunksOf w (c0 :: s')))).headD []),
        (splitLines (h0 ++ '\n' :: joinNL (chunksOf w (c0 :: s')))).tail.flatten.filter
          (fun c => !jsWs c),
        ((splitLines (h0 ++ '\n' :: joinNL (chunksOf w (c0 :: s')))).tail.flatten.filter
          (fun c => !jsWs c)).length⟩ : FastaRecord) = ⟨h0, c0 :: s', (c0 :: s').length⟩
      rw [hsl]
      rw [show ((h0 :: chunksOf w (c0 :: s')).headD []) = h0 from rfl]
      rw [show (h0 :: chunksOf w (c0 :: s')).tail = chunksOf w (c0 :: s') from rfl]
      rw [jsTrim_eq_self h0 hh hhd hlast]
      rw [flatten_chunksOf]
      rw [List.filter_eq_self.mpr (fun a ha => by simp [hs a ha])]
    rw [hrec]

/-- Claim C8 counterexample: a record whose sequence contains the `>`
character breaks the round trip: parsed back after rewrapping at width 1
(so that the `>` lands at a line start), the output is two records and the
first sequence differs from the original. -/
theorem C8_cex :
    parseFasta (">s\nA>C\n".toList) = [⟨"s".toList, "A>C".toList, 3⟩] ∧
    rewrapFasta 0 ("s".toList) ("A>C".toList) = ">s\nA\n>\nC".toList ∧
    parseFasta (">s\nA\n>\nC".toList) =
      [⟨"s".toList, "A".toList, 1⟩, ⟨"C".toList, [], 0⟩] ∧
    [⟨"s".toList, "A".toList, 1⟩, ⟨"C".toList, ([] : Str), 0⟩] ≠
      [(⟨"s".toList, "A>C".toList, 3⟩ : FastaRecord)] := by
  refine ⟨by decide, ?_, by decide, by decide⟩
  rw [show rewrapFasta 0 ("s".toList) ("A>C".toList) =
    '>' :: ("s".toList ++ '\n' :: joinNL (chunksOf 0 ("A>C".toList))) from rfl]
  rw [show chunksOf 0 ("A>C".toList) = ["A".toList, ">".toList, "C".toList] from by
    simp [chunksOf]]
  decide

/-- Claim C8 (amended): for every record produced by parseFasta whose
sequence does not contain the `>` character, prepending the delimiter to
the header and rewrapping the sequence into lines at any positive width
(here width w + 1) and reparsing yields exactly one record with the same
header and the same sequence. -/
theorem C8_roundtrip (t0 : Str) (r : FastaRecord) (w : Nat)
    (hr : r ∈ parseFasta t0) (hgt : '>' ∉ r.sequence) :
    parseFasta (rewrapFasta w r.header r.sequence) =
      [⟨r.header, r.sequence, r.sequence.length⟩] := by
  obtain ⟨h1, h2, h3, h4, h5, h6⟩ := parseFasta_record_facts t0 r hr
  exact parseFasta_reassemble r.header r.sequence w h1 h2 h3 h4 h5 h6 hgt

/-- Witness for C8: the first record of a two-record FASTA file survives a
round trip at width 3. -/
theorem C8_witness :
    parseFasta (rewrapFasta 2 ("seq1".toList) ("ACGTACGT".toList)) =
      [⟨"seq1".toList, "ACGTACGT".toList, 8⟩] := by
  have h := C8_roundtrip (">seq1\nACGT\nACGT\n>seq2\nTTTT\n".toList)
    ⟨"seq1".toList, "ACGTACGT".toList, 8⟩ 2 (by decide) (by decide)
  exact h
